import Mathlib

set_option maxRecDepth 4000

/-!
Verification of the peer-topology / connection-resilience core of the bee
repository: the swarm overlay metric (`Proximity`, `Distance`, `DistanceRaw`,
`DistanceCmp`), the circuit breaker (`breaker.go`) and the peer blocklist
(`blocklist.go`).  Go machine integers are modelled as `Nat`/`Int`; `time.Time`
values are instants (`Int`, nanoseconds), with the Go zero value of `time.Time`
modelled as `Option.none` where `IsZero` is tested; `time.Duration` is `Int`
(Go's `time.Duration` is a signed 64-bit count of nanoseconds).  Fallible Go
functions return `Except`/`Option` values.
-/

/-! ## Swarm overlay metric (src/unnamed/part_000, package swarm) -/

/-- Constant MaxPO of the swarm package.  Its defining file is not under
src/, but the source comments in part_000 fix it: `b := MaxPO/8 + 1
// 31/8 + 1 = 4` and `// 31` at the final return. -/
def MaxPO : Nat := 31

/-- Modelled from the spec: the constant EXTENDED_PO of the swarm package is
not under src/; the spec fixes only that it is "a larger configured
bit-window" than MAX_PO.  The upstream convention MaxPO + 5 = 36 is used; no
theorem below depends on the exact value. -/
def ExtendedPO : Nat := 36

/-- Inner loop of Go `Proximity`/`ExtendedProximity`: the first j in [0,8)
with bit (7-j) of the xor byte set, i.e. `(oxo>>(7-j))&0x01 != 0`. -/
def byteDiffBit (oxo : Nat) : Option Nat :=
  (List.range 8).find? (fun j => ((oxo >>> (7 - j)) &&& 1) != 0)

/-- Outer loop of Go `Proximity`/`ExtendedProximity`, scanning byte index `i`
with `fuel = b - i` bytes left; returns `po` when the scan window is
exhausted without a differing bit.  Out-of-range indexing cannot occur in the
callers (the window is bounded by both lengths), `getD _ 0` makes the
function total. -/
def proxLoop (one other : List Nat) (po : Nat) : Nat → Nat → Nat
  | _, 0 => po
  | i, fuel + 1 =>
    match byteDiffBit ((one.getD i 0) ^^^ (other.getD i 0)) with
    | some j => i * 8 + j
    | none => proxLoop one other po (i + 1) fuel

/-- Common body of Go `Proximity` and `ExtendedProximity` (their source is
identical apart from the constant `po`): `b := po/8 + 1`, capped by
`uint8(len(one))` and `uint8(len(other))` (note the Go `uint8` cast of the
lengths, hence the `% 256`), then the bit scan. -/
def proximityPO (po : Nat) (one other : List Nat) : Nat :=
  let b := min (min (po / 8 + 1) (one.length % 256)) (other.length % 256)
  proxLoop one other po 0 b

/-- Go `Proximity` (part_000 lines 21-44). -/
def Proximity (one other : List Nat) : Nat := proximityPO MaxPO one other

/-- Go `ExtendedProximity` (part_000 lines 46-64). -/
def ExtendedProximity (one other : List Nat) : Nat := proximityPO ExtendedPO one other

/-- Go `DistanceRaw` (part_000 lines 90-99): errors when lengths differ,
otherwise the byte-wise xor. -/
def DistanceRaw (x y : List Nat) : Except String (List Nat) :=
  if x.length ≠ y.length then .error "address length must match"
  else .ok (List.zipWith (fun a b => a ^^^ b) x y)

/-- Go `big.Int.SetBytes`: big-endian byte sequence to unsigned integer. -/
def bytesToNat (bs : List Nat) : Nat := bs.foldl (fun acc b => acc * 256 + b) 0

/-- Go `Distance` (part_000 lines 78-86). -/
def Distance (x y : List Nat) : Except String Nat :=
  match DistanceRaw x y with
  | .error e => .error e
  | .ok c => .ok (bytesToNat c)

/-- Loop of Go `DistanceCmp`: first index where `x[i]^a[i] != y[i]^a[i]`
decides; 1 when x's xor byte is smaller (closer), -1 otherwise, 0 when no
index differs. -/
def distCmpLoop : List Nat → List Nat → List Nat → Int
  | a :: as, x :: xs, y :: ys =>
    if x ^^^ a = y ^^^ a then distCmpLoop as xs ys
    else if x ^^^ a < y ^^^ a then 1 else -1
  | _, _, _ => 0

/-- Go `DistanceCmp` (part_000 lines 108-127). -/
def DistanceCmp (a x y : List Nat) : Except String Int :=
  if a.length ≠ x.length ∨ a.length ≠ y.length then .error "address length must match"
  else .ok (distCmpLoop a x y)

/-! ### Helper lemmas for the metric -/

theorem distCmpLoop_self (a x : List Nat) : distCmpLoop a x x = 0 := by
  induction a generalizing x with
  | nil => cases x <;> rfl
  | cons ah at' ih =>
    cases x with
    | nil => rfl
    | cons xh xt => simp [distCmpLoop, ih]

theorem distCmpLoop_antisym (a x y : List Nat) :
    distCmpLoop a y x = -distCmpLoop a x y := by
  induction a generalizing x y with
  | nil => cases x <;> cases y <;> rfl
  | cons ah at' ih =>
    cases x with
    | nil => cases y <;> rfl
    | cons xh xt =>
      cases y with
      | nil => rfl
      | cons yh yt =>
        by_cases h : xh ^^^ ah = yh ^^^ ah
        · simp only [distCmpLoop, h, if_pos rfl]
          exact ih xt yt
        · have h' : ¬ (yh ^^^ ah = xh ^^^ ah) := fun hh => h hh.symm
          by_cases hlt : xh ^^^ ah < yh ^^^ ah
          · have hnlt : ¬ (yh ^^^ ah < xh ^^^ ah) := by omega
            simp [distCmpLoop, h, h', hlt, hnlt]
          · have hlt' : yh ^^^ ah < xh ^^^ ah := by omega
            simp [distCmpLoop, h, h', hlt, hlt']

theorem distCmpLoop_eq_zero {a x y : List Nat}
    (hx : x.length = a.length) (hy : y.length = a.length)
    (h : distCmpLoop a x y = 0) : x = y := by
  induction a generalizing x y with
  | nil =>
    cases x with
    | nil =>
      cases y with
      | nil => rfl
      | cons _ _ => simp at hy
    | cons _ _ => simp at hx
  | cons ah at' ih =>
    cases x with
    | nil => simp at hx
    | cons xh xt =>
      cases y with
      | nil => simp at hy
      | cons yh yt =>
        simp only [List.length_cons, Nat.succ.injEq] at hx hy
        by_cases hb : xh ^^^ ah = yh ^^^ ah
        · have hhead : xh = yh := by
            have := congrArg (fun z => z ^^^ ah) hb
            simpa [Nat.xor_assoc, Nat.xor_self, Nat.xor_zero] using this
          have htail : xt = yt := by
            apply ih hx hy
            simpa [distCmpLoop, hb] using h
          rw [hhead, htail]
        · by_cases hlt : xh ^^^ ah < yh ^^^ ah
          · simp [distCmpLoop, hb, hlt] at h
          · simp [distCmpLoop, hb, hlt] at h

theorem getD_take (l : List Nat) (k i d : Nat) (h : i < k) :
    (l.take k).getD i d = l.getD i d := by
  induction l generalizing k i with
  | nil => simp
  | cons a l ih =>
    cases k with
    | zero => omega
    | succ k =>
      cases i with
      | zero => simp
      | succ i =>
        simp only [List.take_succ_cons, List.getD_cons_succ]
        exact ih k i (by omega)

theorem proxLoop_take (one other : List Nat) (po k : Nat) :
    ∀ fuel i, i + fuel ≤ k →
      proxLoop (one.take k) (other.take k) po i fuel = proxLoop one other po i fuel := by
  intro fuel
  induction fuel with
  | zero => intro i _; rfl
  | succ n ih =>
    intro i hik
    have hi : i < k := by omega
    simp only [proxLoop, getD_take one k i 0 hi, getD_take other k i 0 hi]
    cases byteDiffBit ((one.getD i 0) ^^^ (other.getD i 0)) with
    | some j => rfl
    | none => exact ih (i + 1) (by omega)

theorem proximityPO_take (po : Nat) (one other : List Nat)
    (h1 : one.length < 256) (h2 : other.length < 256) :
    proximityPO po (one.take (min one.length other.length))
      (other.take (min one.length other.length)) = proximityPO po one other := by
  set k := min one.length other.length with hk
  have hlen1 : (one.take k).length = k := by
    simp [List.length_take, hk]
  have hlen2 : (other.take k).length = k := by
    simp [List.length_take, hk]
  have hkb : k < 256 := by omega
  unfold proximityPO
  simp only [hlen1, hlen2, Nat.mod_eq_of_lt hkb, Nat.mod_eq_of_lt h1, Nat.mod_eq_of_lt h2]
  have hb : min (min (po / 8 + 1) k) k = min (min (po / 8 + 1) one.length) other.length := by
    omega
  rw [hb]
  exact proxLoop_take one other po k _ 0 (by omega)

/-! ### Claims C6 and C7 -/

/-- Claim C6 (counterexample): the claim that every distance and proximity
function fails on length-mismatched inputs is false: `Proximity` has no error
path at all; on the mismatched pair `[5]` / `[5, 9]` it returns the MaxPO
sentinel 31 (and `ExtendedProximity` returns 36) instead of failing. -/
theorem proximity_no_error_cex :
    Proximity [5] [5, 9] = 31 ∧ ExtendedProximity [5] [5, 9] = 36 := by
  constructor <;> rfl

/-- Claim C6 (amended): `Distance`, `DistanceRaw` and `DistanceCmp` fail with
the length-mismatch input error for any mismatched pair of inputs;
`Proximity` and `ExtendedProximity` have no error path: they bound their scan
window by the shorter input (shown here for inputs shorter than 256 bytes,
where the Go `uint8` length cast does not wrap). -/
theorem metric_length_mismatch_amended :
    (∀ x y : List Nat, x.length ≠ y.length →
      DistanceRaw x y = .error "address length must match" ∧
      Distance x y = .error "address length must match") ∧
    (∀ a x y : List Nat, a.length ≠ x.length ∨ a.length ≠ y.length →
      DistanceCmp a x y = .error "address length must match") ∧
    (∀ one other : List Nat, one.length < 256 → other.length < 256 →
      Proximity (one.take (min one.length other.length))
        (other.take (min one.length other.length)) = Proximity one other ∧
      ExtendedProximity (one.take (min one.length other.length))
        (other.take (min one.length other.length)) = ExtendedProximity one other) := by
  refine ⟨?_, ?_, ?_⟩
  · intro x y h
    constructor
    · simp [DistanceRaw, h]
    · simp [Distance, DistanceRaw, h]
  · intro a x y h
    simp [DistanceCmp, h]
  · intro one other h1 h2
    exact ⟨proximityPO_take MaxPO one other h1 h2, proximityPO_take ExtendedPO one other h1 h2⟩

/-- Claim C6 amended theorem, witnessed at concrete inputs. -/
theorem metric_length_mismatch_amended_witness :
    DistanceRaw [0] [1, 2] = .error "address length must match" ∧
    DistanceCmp [0] [1] [1, 2] = .error "address length must match" := by
  refine ⟨(metric_length_mismatch_amended.1 [0] [1, 2] (by decide)).1,
    metric_length_mismatch_amended.2.1 [0] [1] [1, 2] (by decide)⟩

/-- Claim C7: for equal-length byte sequences, `DistanceCmp a x y` is the
negation of `DistanceCmp a y x`, `DistanceCmp a x x = 0`, and the comparison
returns 0 only when x and y are the same address. -/
theorem distance_cmp_props (a x y : List Nat)
    (hx : x.length = a.length) (hy : y.length = a.length) :
    DistanceCmp a y x = (DistanceCmp a x y).map (fun r => -r) ∧
    DistanceCmp a x x = .ok 0 ∧
    (DistanceCmp a x y = .ok 0 → x = y) := by
  have hgxy : ¬ (a.length ≠ x.length ∨ a.length ≠ y.length) := by omega
  have hgyx : ¬ (a.length ≠ y.length ∨ a.length ≠ x.length) := by omega
  have hgxx : ¬ (a.length ≠ x.length ∨ a.length ≠ x.length) := by omega
  refine ⟨?_, ?_, ?_⟩
  · simp only [DistanceCmp, if_neg hgxy, if_neg hgyx, Except.map]
    rw [distCmpLoop_antisym]
  · simp only [DistanceCmp, if_neg hgxx]
    rw [distCmpLoop_self]
  · intro h
    simp only [DistanceCmp, if_neg hgxy] at h
    exact distCmpLoop_eq_zero hx hy (by injection h)

/-- Claim C7 theorem, witnessed at concrete equal-length inputs. -/
theorem distance_cmp_props_witness :
    DistanceCmp [0] [1] [1] = .ok 0 ∧ DistanceCmp [0] [2] [1] = (DistanceCmp [0] [1] [2]).map (fun r => -r) :=
  ⟨(distance_cmp_props [0] [1] [2] (by decide) (by decide)).2.1,
   (distance_cmp_props [0] [1] [2] (by decide) (by decide)).1⟩

/-! ## Circuit breaker (src/pkg/p2p/libp2p/internal/breaker/breaker.go) -/

/-- Default constants of breaker.go (durations in nanoseconds): limit = 100,
failInterval = 30min, maxBackoff = 1h, backoff = 2min. -/
def limitDefault : Nat := 100

def failIntervalDefault : Int := 1800000000000

def maxBackoffDefault : Int := 3600000000000

def backoffDefault : Int := 120000000000

/-- Go struct `breaker`.  `time.Time` fields checked with `IsZero` are
`Option Int` with `none` for the zero value; durations are `Int`
(nanoseconds, Go `time.Duration` is signed). -/
structure Breaker where
  limit : Nat
  consFailedCalls : Nat
  firstFailedTimestamp : Option Int
  closedTimestamp : Option Int
  backoff : Int
  maxBackoff : Int
  failInterval : Int
deriving DecidableEq, Repr

/-- Go struct `Options` of breaker.go. -/
structure Options where
  Limit : Nat
  FailInterval : Int
  StartBackoff : Int
  MaxBackoff : Int
deriving DecidableEq, Repr

/-- Go `NewBreaker`: zero-valued options fall back to the defaults. -/
def NewBreaker (o : Options) : Breaker :=
  { limit := if o.Limit = 0 then limitDefault else o.Limit
    consFailedCalls := 0
    firstFailedTimestamp := none
    closedTimestamp := none
    backoff := if o.StartBackoff = 0 then backoffDefault else o.StartBackoff
    maxBackoff := if o.MaxBackoff = 0 then maxBackoffDefault else o.MaxBackoff
    failInterval := if o.FailInterval = 0 then failIntervalDefault else o.FailInterval }

/-- Go `resetFailed`. -/
def resetFailed (b : Breaker) : Breaker :=
  { b with consFailedCalls := 0, firstFailedTimestamp := none }

/-- The window-decay check at the end of Go `beforef` (lines 132-135): if the
first-failure timestamp is set and at least failInterval old, reset the
failure counters. -/
def decayCheck (b : Breaker) (now : Int) : Breaker :=
  match b.firstFailedTimestamp with
  | none => b
  | some ft => if now - ft ≥ b.failInterval then resetFailed b else b

/-- Go `beforef` (lines 110-138).  `none` models returning `ErrClosed`; the
several `timeNow()` reads inside one locked section are modelled by the
single instant `now`. -/
def beforef (b : Breaker) (now : Int) : Option Breaker :=
  if b.consFailedCalls ≥ b.limit then
    match b.closedTimestamp with
    | none => none
    | some ct =>
      if now - ct < b.backoff then none
      else
        let b1 := resetFailed b
        let b2 :=
          if b1.backoff * 2 ≤ b1.maxBackoff then { b1 with backoff := b1.backoff * 2 }
          else { b1 with backoff := b1.maxBackoff }
        some (decayCheck b2 now)
  else some (decayCheck b now)

/-- Go `afterf` (lines 140-159), applied to the wrapped operation's result
(`some _` a failure, `none` success).  The original error is returned by
`Execute` unchanged, so only the state transition is computed here. -/
def afterf {E : Type} (b : Breaker) (now : Int) (err : Option E) : Breaker :=
  match err with
  | some _ =>
    let b1 :=
      if b.consFailedCalls = 0 then { b with firstFailedTimestamp := some now } else b
    let b2 := { b1 with consFailedCalls := b1.consFailedCalls + 1 }
    if b2.consFailedCalls = b2.limit then { b2 with closedTimestamp := some now } else b2
  | none => resetFailed b

/-- Result of Go `Execute`: `rejected` models returning `ErrClosed` without
invoking the operation, `ran opErr` models invoking the operation and
returning its result unchanged. -/
inductive ExecResult (E : Type) where
  | rejected
  | ran (opErr : Option E)
deriving DecidableEq, Repr

/-- Go `Execute` (lines 90-96).  The operation is supplied as the result it
would produce (`opErr`); `now1`/`now2` are the instants at which `beforef`
and `afterf` read the clock (the operation runs between them, unlocked). -/
def Execute {E : Type} (b : Breaker) (now1 now2 : Int) (opErr : Option E) :
    Breaker × ExecResult E :=
  match beforef b now1 with
  | none => (b, .rejected)
  | some b1 => (afterf b1 now2 opErr, .ran opErr)

/-- Go `ClosedUntil` (lines 99-108); the zero `time.Time` is instant 0. -/
def ClosedUntil (b : Breaker) (now : Int) : Int :=
  if b.consFailedCalls ≥ b.limit then b.closedTimestamp.getD 0 + b.backoff else now

/-- One externally observable call on a breaker, for stating invariants over
call sequences: an `Execute` with its two clock reads and the operation's
result, or a `ClosedUntil`. -/
inductive BOp (E : Type) where
  | exec (now1 now2 : Int) (opErr : Option E)
  | closedUntil (now : Int)
deriving DecidableEq, Repr

/-- State reached after one call: `Execute` leaves its post state,
`ClosedUntil` only reads (its Go body takes the lock but writes nothing). -/
def applyBOp {E : Type} (b : Breaker) : BOp E → Breaker
  | .exec n1 n2 e => (Execute b n1 n2 e).1
  | .closedUntil _ => b

/-! ### Claims C1, C4, C5, C10 -/

/-- Claim C1: a breaker that has recorded exactly `limit` consecutive
failures, with the trip timestamp set and the backoff not yet elapsed,
rejects the next `Execute` with the breaker-open error (`ErrClosed`,
modelled by `ExecResult.rejected`) and does not invoke the operation (no
`afterf` transition happens; the state is returned unchanged). -/
theorem breaker_open_rejects {E : Type} (b : Breaker) (t now1 now2 : Int) (opErr : Option E)
    (hc : b.consFailedCalls = b.limit) (hcl : b.closedTimestamp = some t)
    (hb : now1 - t < b.backoff) :
    Execute b now1 now2 opErr = (b, ExecResult.rejected) := by
  have h1 : b.consFailedCalls ≥ b.limit := Nat.le_of_eq hc.symm
  unfold Execute beforef
  rw [if_pos h1, hcl]
  simp [hb]

/-- Claim C1 theorem, witnessed at a concrete tripped breaker. -/
theorem breaker_open_rejects_witness :
    Execute ⟨1, 1, some 0, some 0, 5, 10, 100⟩ 2 3 (some (0 : Nat)) =
      (⟨1, 1, some 0, some 0, 5, 10, 100⟩, ExecResult.rejected) :=
  breaker_open_rejects _ 0 2 3 (some 0) rfl rfl (by decide)

/-- Claim C4: on a tripped breaker (consecutive failures at or above
`limit`) whose current backoff has elapsed since the trip timestamp,
`Execute` resets the failure counter and the first-failure timestamp,
doubles the backoff capped at `maxBackoff`, and invokes the operation
(result `ran`, with the `afterf` bookkeeping applied to the reopened
state). -/
theorem breaker_cooldown_reopens {E : Type} (b : Breaker) (t now1 : Int)
    (hc : b.consFailedCalls ≥ b.limit) (hcl : b.closedTimestamp = some t)
    (hb : b.backoff ≤ now1 - t) :
    beforef b now1 = some { resetFailed b with backoff := min (b.backoff * 2) b.maxBackoff } ∧
    ∀ (now2 : Int) (opErr : Option E),
      Execute b now1 now2 opErr =
        (afterf { resetFailed b with backoff := min (b.backoff * 2) b.maxBackoff } now2 opErr,
         ExecResult.ran opErr) := by
  have hnb : ¬ (now1 - t < b.backoff) := by omega
  have hbf : beforef b now1 =
      some { resetFailed b with backoff := min (b.backoff * 2) b.maxBackoff } := by
    unfold beforef
    rw [if_pos hc, hcl]
    dsimp only
    rw [if_neg hnb]
    by_cases h2 : b.backoff * 2 ≤ b.maxBackoff
    · simp [resetFailed, decayCheck, h2, min_eq_left h2]
    · have hm : min (b.backoff * 2) b.maxBackoff = b.maxBackoff := min_eq_right (by omega)
      simp [resetFailed, decayCheck, h2, hm]
  refine ⟨hbf, fun now2 opErr => ?_⟩
  unfold Execute
  rw [hbf]

/-- Claim C4 theorem, witnessed at a concrete tripped breaker past its
cool-down: backoff 2 doubles to 4 (max 10), counters reset, op invoked. -/
theorem breaker_cooldown_reopens_witness :
    beforef (⟨1, 1, some 0, some 0, 2, 10, 100⟩ : Breaker) 5 = some ⟨1, 0, none, some 0, 4, 10, 100⟩ ∧
    Execute (⟨1, 1, some 0, some 0, 2, 10, 100⟩ : Breaker) 5 7 (none : Option Nat) =
      (⟨1, 0, none, some 0, 4, 10, 100⟩, ExecResult.ran none) := by
  have h := breaker_cooldown_reopens (E := Nat)
    (⟨1, 1, some 0, some 0, 2, 10, 100⟩ : Breaker) 0 5 (by decide) rfl (by decide)
  exact ⟨h.1.trans (by decide), (h.2 7 none).trans (by decide)⟩

/-- Claim C5: on a non-tripped breaker with a recorded first-failure
timestamp at least `failInterval` old, `Execute` resets the
consecutive-failure count (and first-failure timestamp, via `resetFailed`)
before invoking the operation; consequently a subsequent failure is recorded
as a fresh streak of length 1 rather than accumulating on the stale one. -/
theorem breaker_window_resets {E : Type} (b : Breaker) (t now1 : Int)
    (hc : b.consFailedCalls < b.limit) (hf : b.firstFailedTimestamp = some t)
    (hw : b.failInterval ≤ now1 - t) :
    beforef b now1 = some (resetFailed b) ∧
    (∀ (now2 : Int) (opErr : Option E),
      Execute b now1 now2 opErr = (afterf (resetFailed b) now2 opErr, ExecResult.ran opErr)) ∧
    (∀ (now2 : Int) (e : E), (Execute b now1 now2 (some e)).1.consFailedCalls = 1) := by
  have hnc : ¬ (b.consFailedCalls ≥ b.limit) := by omega
  have hbf : beforef b now1 = some (resetFailed b) := by
    unfold beforef
    rw [if_neg hnc]
    simp [decayCheck, hf, hw]
  refine ⟨hbf, fun now2 opErr => ?_, fun now2 e => ?_⟩
  · unfold Execute
    rw [hbf]
  · unfold Execute
    rw [hbf]
    simp [afterf, resetFailed]
    split <;> rfl

/-- Claim C5 theorem, witnessed at a concrete breaker with a stale failure
streak (2 failures below limit 5, first failure 200 ns old, window 100). -/
theorem breaker_window_resets_witness :
    beforef (⟨5, 2, some 0, none, 2, 10, 100⟩ : Breaker) 200 = some ⟨5, 0, none, none, 2, 10, 100⟩ ∧
    (Execute (⟨5, 2, some 0, none, 2, 10, 100⟩ : Breaker) 200 201 (some (7 : Nat))).1.consFailedCalls = 1 := by
  have h := breaker_window_resets (E := Nat)
    (⟨5, 2, some 0, none, 2, 10, 100⟩ : Breaker) 0 200 (by decide) rfl (by decide)
  exact ⟨h.1.trans (by decide), h.2.2 201 7⟩

/-- The decay check never touches the backoff fields. -/
theorem decayCheck_backoff (b : Breaker) (now : Int) :
    (decayCheck b now).backoff = b.backoff ∧ (decayCheck b now).maxBackoff = b.maxBackoff := by
  unfold decayCheck
  cases b.firstFailedTimestamp with
  | none => exact ⟨rfl, rfl⟩
  | some ft =>
    by_cases h : now - ft ≥ b.failInterval
    · simp [h, resetFailed]
    · simp [h]

/-- The post-check `afterf` never touches the backoff fields. -/
theorem afterf_backoff {E : Type} (b : Breaker) (now : Int) (err : Option E) :
    (afterf b now err).backoff = b.backoff ∧ (afterf b now err).maxBackoff = b.maxBackoff := by
  cases err with
  | none => exact ⟨rfl, rfl⟩
  | some e =>
    unfold afterf
    dsimp only
    split_ifs <;> exact ⟨rfl, rfl⟩

/-- When the pre-check admits the call, a nonnegative backoff bounded by
`maxBackoff` can only stay or grow (doubling capped at `maxBackoff`), stays
nonnegative and bounded, and `maxBackoff` is untouched. -/
theorem beforef_backoff (b : Breaker) (now : Int) (b' : Breaker)
    (h0 : 0 ≤ b.backoff) (h1 : b.backoff ≤ b.maxBackoff)
    (h : beforef b now = some b') :
    b.backoff ≤ b'.backoff ∧ 0 ≤ b'.backoff ∧ b'.backoff ≤ b'.maxBackoff ∧
    b'.maxBackoff = b.maxBackoff := by
  unfold beforef at h
  by_cases hc : b.consFailedCalls ≥ b.limit
  · rw [if_pos hc] at h
    cases hcl : b.closedTimestamp with
    | none => rw [hcl] at h; exact absurd h (by simp)
    | some ct =>
      rw [hcl] at h
      dsimp only at h
      by_cases hb : now - ct < b.backoff
      · rw [if_pos hb] at h; exact absurd h (by simp)
      · rw [if_neg hb] at h
        simp only [resetFailed] at h
        by_cases h2 : b.backoff * 2 ≤ b.maxBackoff
        · rw [if_pos h2] at h
          injection h with h
          subst h
          rw [(decayCheck_backoff _ now).1, (decayCheck_backoff _ now).2]
          dsimp only
          omega
        · rw [if_neg h2] at h
          injection h with h
          subst h
          rw [(decayCheck_backoff _ now).1, (decayCheck_backoff _ now).2]
          dsimp only
          omega
  · rw [if_neg hc] at h
    injection h with h
    subst h
    have hd := decayCheck_backoff b now
    rw [hd.1, hd.2]
    exact ⟨le_refl _, h0, h1, rfl⟩

/-- One call (an `Execute` or a `ClosedUntil`) keeps `maxBackoff` fixed and,
from a nonnegative backoff bounded by `maxBackoff`, never shrinks the
backoff. -/
theorem applyBOp_backoff_step {E : Type} (b : Breaker) (op : BOp E)
    (h0 : 0 ≤ b.backoff) (h1 : b.backoff ≤ b.maxBackoff) :
    b.backoff ≤ (applyBOp b op).backoff ∧ 0 ≤ (applyBOp b op).backoff ∧
    (applyBOp b op).backoff ≤ (applyBOp b op).maxBackoff ∧
    (applyBOp b op).maxBackoff = b.maxBackoff := by
  cases op with
  | closedUntil n => exact ⟨le_refl _, h0, h1, rfl⟩
  | exec n1 n2 opErr =>
    have hgoal : applyBOp b (BOp.exec n1 n2 opErr) = (Execute b n1 n2 opErr).1 := rfl
    rw [hgoal]
    cases hbf : beforef b n1 with
    | none =>
      have hE : (Execute b n1 n2 opErr).1 = b := by unfold Execute; rw [hbf]
      rw [hE]
      exact ⟨le_refl _, h0, h1, rfl⟩
    | some b1 =>
      have hE : (Execute b n1 n2 opErr).1 = afterf b1 n2 opErr := by unfold Execute; rw [hbf]
      rw [hE]
      have hb1 := beforef_backoff b n1 b1 h0 h1 hbf
      have ha := afterf_backoff b1 n2 opErr
      exact ⟨by rw [ha.1]; exact hb1.1, by rw [ha.1]; exact hb1.2.1,
        by rw [ha.1, ha.2]; exact hb1.2.2.1, by rw [ha.2]; exact hb1.2.2.2⟩

/-- Backoff never shrinks along any call sequence, from any state with a
nonnegative backoff bounded by `maxBackoff`. -/
theorem foldl_backoff_mono {E : Type} (ops : List (BOp E)) :
    ∀ b : Breaker, 0 ≤ b.backoff → b.backoff ≤ b.maxBackoff →
      b.backoff ≤ (ops.foldl applyBOp b).backoff := by
  induction ops with
  | nil => intro b _ _; exact le_refl _
  | cons op ops ih =>
    intro b h0 h1
    have hs := applyBOp_backoff_step b op h0 h1
    have ht := ih (applyBOp b op) hs.2.1 hs.2.2.1
    rw [List.foldl_cons]
    exact le_trans hs.1 ht

/-- Claim C10 (counterexample): as stated ("initial backoff not exceeding
max backoff") the claim is false, because `NewBreaker` accepts a negative
`StartBackoff` (Go `time.Duration` is signed) and doubling then *decreases*
the backoff.  With `Limit = 1`, `StartBackoff = -2 ≤ 10 = MaxBackoff`, one
failing call trips the breaker and the next call (cool-down trivially
elapsed) doubles -2 to -4. -/
theorem backoff_decreases_cex :
    (NewBreaker ⟨1, 1, -2, 10⟩).backoff ≤ (NewBreaker ⟨1, 1, -2, 10⟩).maxBackoff ∧
    (([BOp.exec 0 0 (some 0), BOp.exec 5 5 none] : List (BOp Nat)).foldl applyBOp
        (NewBreaker ⟨1, 1, -2, 10⟩)).backoff < (NewBreaker ⟨1, 1, -2, 10⟩).backoff := by
  decide

/-- Claim C10 (amended): for a breaker constructed with a *nonnegative*
initial backoff not exceeding max backoff, the current backoff is
non-decreasing across any sequence of `Execute` and `ClosedUntil` calls:
once doubled after a trip's cool-down elapses it is never restored to the
initial value, even by later successful operations. -/
theorem backoff_monotone {E : Type} (o : Options) (ops : List (BOp E))
    (h0 : 0 ≤ (NewBreaker o).backoff)
    (h1 : (NewBreaker o).backoff ≤ (NewBreaker o).maxBackoff) :
    (NewBreaker o).backoff ≤ (ops.foldl applyBOp (NewBreaker o)).backoff :=
  foldl_backoff_mono ops (NewBreaker o) h0 h1

/-- Claim C10 amended theorem, witnessed on a concrete trip-and-reopen
sequence (backoff 2 with max 10; the sequence trips and reopens). -/
theorem backoff_monotone_witness :
    (NewBreaker ⟨1, 1, 2, 10⟩).backoff ≤
      (([BOp.exec 0 0 (some 0), BOp.exec 5 5 none, BOp.closedUntil 6] : List (BOp Nat)).foldl
        applyBOp (NewBreaker ⟨1, 1, 2, 10⟩)).backoff :=
  backoff_monotone ⟨1, 1, 2, 10⟩ [BOp.exec 0 0 (some 0), BOp.exec 5 5 none, BOp.closedUntil 6]
    (by decide) (by decide)

/-! ## Blocklist (src/pkg/p2p/libp2p/internal/blocklist/blocklist.go)

The external `storage.StateStorer` is modelled as an interface record over an
abstract store state `σ`, so that the blocklist operations can be settled both
against the well-behaved list-backed store and against stores that fail.
Go strings are `List Char`; an overlay address is identified with its hex
rendering (so `swarm.ParseHexAddress` in `unmarshalKey` is the identity and
its error path, excluded from this core by the spec, is not modelled).
`entry.Duration` is stored as an `Int` directly; the Go round-trip through
`duration.String()`/`time.ParseDuration` is lossless, and decode failures are
covered by the store `Get` returning an error. -/

namespace BL

/-- Store-level errors: Go `storage.ErrNotFound`, or any other persistence
failure (I/O, encoding/decoding), distinguished by an arbitrary code. -/
inductive StoreErr where
  | notFound
  | fail (code : Nat)
deriving DecidableEq, Repr

/-- Go struct `entry` of blocklist.go. -/
structure entry where
  Timestamp : Int
  Duration : Int
deriving DecidableEq, Repr

/-- Go `keyPrefix = "blocklist-"`. -/
def keyPref : List Char := "blocklist-".data

/-- The Go `storage.StateStorer` interface as used by the blocklist: keyed
get/put/delete plus prefix iteration.  `Get` decodes the stored value into an
`entry` (a decode failure is an error result).  `IterKeys` is the order in
which `Iterate` visits the keys matching a prefix (the visitor in `Peers`
re-fetches each value itself, so only keys matter). -/
structure StateStorer (σ : Type) where
  Get : σ → List Char → σ × Except StoreErr entry
  Put : σ → List Char → entry → σ × Option StoreErr
  Delete : σ → List Char → σ × Option StoreErr
  IterKeys : σ → List Char → List (List Char)

/-- Go `generateKey`. -/
def generateKey (overlay : List Char) : List Char := keyPref ++ overlay

/-- Go `unmarshalKey` (`strings.TrimPrefix`, then hex parsing modelled as the
identity). -/
def unmarshalKey (s : List Char) : List Char :=
  if keyPref.isPrefixOf s then s.drop keyPref.length else s

/-- Go method `Blocklist.get`: on any store/decode error it returns the zero
time and the sentinel duration -1 together with the error. -/
def get {σ : Type} (S : StateStorer σ) (st : σ) (key : List Char) :
    σ × Int × Int × Option StoreErr :=
  match S.Get st key with
  | (st', .error e) => (st', 0, -1, some e)
  | (st', .ok en) => (st', en.Timestamp, en.Duration, none)

/-- Go `Blocklist.Exists` (lines 34-52).  Note the deliberately discarded
`Delete` error (`_ = b.store.Delete(key)`) on the expiry path. -/
def Exists {σ : Type} (S : StateStorer σ) (st : σ) (overlay : List Char) (now : Int) :
    σ × Bool × Option StoreErr :=
  let key := generateKey overlay
  match get S st key with
  | (st', _, _, some e) =>
    if e = .notFound then (st', false, none) else (st', false, some e)
  | (st', t, d, none) =>
    if now - t > d ∧ d ≠ 0 then ((S.Delete st' key).1, false, none)
    else (st', true, none)

/-- Go `Blocklist.Add` (lines 55-76): a non-not-found lookup error is
returned; otherwise the effective duration is computed from the prior
duration `d` (-1 when absent) by `duration < d && duration != 0 || d == 0`,
and the entry is stored with the current time. -/
def Add {σ : Type} (S : StateStorer σ) (st : σ) (overlay : List Char)
    (duration now : Int) : σ × Option StoreErr :=
  let key := generateKey overlay
  match get S st key with
  | (st', _, d, some e) =>
    if e ≠ .notFound then (st', some e)
    else S.Put st' key ⟨now, if duration < d ∧ duration ≠ 0 ∨ d = 0 then d else duration⟩
  | (st', _, d, none) =>
    S.Put st' key ⟨now, if duration < d ∧ duration ≠ 0 ∨ d = 0 then d else duration⟩

/-- The visitor loop of Go `Blocklist.Peers` (lines 79-108) over the keys the
store iteration yields: a non-prefixed key stops the iteration without error;
a fetch error aborts with that error; an expired entry is skipped; otherwise
the address is appended. -/
def peersGo {σ : Type} (S : StateStorer σ) (now : Int) :
    List (List Char) → σ → List (List Char) → σ × Except StoreErr (List (List Char))
  | [], st, acc => (st, .ok acc)
  | k :: ks, st, acc =>
    if keyPref.isPrefixOf k then
      match get S st k with
      | (st', _, _, some e) => (st', .error e)
      | (st', t, d, none) =>
        if now - t > d ∧ d ≠ 0 then peersGo S now ks st' acc
        else peersGo S now ks st' (acc ++ [unmarshalKey k])
    else (st, .ok acc)

/-- Go `Blocklist.Peers`. -/
def Peers {σ : Type} (S : StateStorer σ) (st : σ) (now : Int) :
    σ × Except StoreErr (List (List Char)) :=
  peersGo S now (S.IterKeys st keyPref) st []

/-- The well-behaved reference store: an association list keyed by store key.
`Get` reads without mutating, `Put` overwrites the key, `Delete` removes it,
iteration visits keys with the prefix in store order. -/
abbrev ListStore := List (List Char × entry)

/-- First entry stored under a key, as Go `Get` would decode it. -/
def lookupE (st : ListStore) (k : List Char) : Option entry :=
  (st.find? (fun p => p.1 == k)).map (fun p => p.2)

/-- Removal of a key, as Go `Delete`. -/
def eraseKey (st : ListStore) (k : List Char) : ListStore :=
  st.filter (fun p => p.1 != k)

/-- Overwrite of a key, as Go `Put`. -/
def putKey (st : ListStore) (k : List Char) (e : entry) : ListStore :=
  (k, e) :: eraseKey st k

/-- The list-backed `StateStorer`. -/
def listStore : StateStorer ListStore :=
  { Get := fun st k =>
      (st, match lookupE st k with
           | none => .error .notFound
           | some e => .ok e)
    Put := fun st k e => (putKey st k e, none)
    Delete := fun st k => (eraseKey st k, none)
    IterKeys := fun st pre => (st.map (fun p => p.1)).filter (fun k => pre.isPrefixOf k) }

end BL

/-! ### Claims C2 and C3 -/

/-- Spec-side effective stored duration of `add`, written from the claim's
words: keep the existing duration when it is 0 (indefinite) or when the
request is nonzero and strictly below it, use the request otherwise — with
the amendment that, when no prior entry exists, a requested duration below
the -1 lookup sentinel is stored as -1. -/
def specStoredDuration (prior : Option Int) (req : Int) : Int :=
  match prior with
  | some d => if d = 0 ∨ (req ≠ 0 ∧ req < d) then d else req
  | none => if req < -1 then -1 else req

/-- Claim C2 (counterexample): as stated ("for every requested duration, the
requested duration is stored when there is no prior entry") the claim fails
on requested durations below -1ns: with no prior entry, `Add` with requested
duration -2 stores -1 (the not-found lookup sentinel wins the comparison),
not -2. -/
theorem add_sentinel_duration_cex :
    BL.lookupE (BL.Add BL.listStore [] ['a'] (-2) 5).1 (BL.generateKey ['a']) =
      some ⟨5, -1⟩ ∧
    BL.lookupE (BL.Add BL.listStore [] ['a'] (-2) 5).1 (BL.generateKey ['a']) ≠
      some ⟨5, -2⟩ := by
  constructor <;> decide

/-- Claim C2 (amended): `Add` always stores, under the generated key and with
no error, an entry whose timestamp is the current time and whose duration is:
the existing duration when the existing duration is 0 or the requested one is
nonzero and strictly below it; the requested duration otherwise (no prior
entry, longer request, or requested 0 meaning indefinite) — except that with
no prior entry a negative requested duration below -1ns is stored as -1ns
(the not-found sentinel of the internal lookup). -/
theorem add_stores_effective_duration (st : BL.ListStore) (a : List Char) (req now : Int) :
    BL.Add BL.listStore st a req now =
      (BL.putKey st (BL.generateKey a)
        ⟨now, specStoredDuration ((BL.lookupE st (BL.generateKey a)).map BL.entry.Duration) req⟩,
       none) := by
  unfold BL.Add BL.get
  cases h : BL.lookupE st (BL.generateKey a) with
  | none =>
    simp only [BL.listStore, h, Option.map_none', specStoredDuration, ne_eq]
    split_ifs <;> first | rfl | (exfalso; omega) | simp_all
  | some e =>
    simp only [BL.listStore, h, Option.map_some', specStoredDuration, ne_eq]
    split_ifs <;> first | rfl | (exfalso; omega)

/-- Spec-side result of `exists`, written from the claim's words: absent
entry means false with no error; a nonzero duration with `now - timestamp`
beyond it means false, with the entry deleted; otherwise (indefinite or
still within the duration) true. -/
def specExists (st : BL.ListStore) (a : List Char) (now : Int) :
    BL.ListStore × Bool × Option BL.StoreErr :=
  match BL.lookupE st (BL.generateKey a) with
  | none => (st, false, none)
  | some e =>
    if e.Duration ≠ 0 ∧ now - e.Timestamp > e.Duration then
      (BL.eraseKey st (BL.generateKey a), false, none)
    else (st, true, none)

/-- Claim C3: against the list-backed store, `Exists` behaves exactly as the
claim describes — false with no error on a missing entry (the not-found
error is recovered into a boolean), false with the entry deleted when the
nonzero duration has been exceeded, true when the duration is zero
(indefinite) or the elapsed time is within it. -/
theorem exists_matches_spec (st : BL.ListStore) (a : List Char) (now : Int) :
    BL.Exists BL.listStore st a now = specExists st a now := by
  unfold BL.Exists BL.get specExists
  cases h : BL.lookupE st (BL.generateKey a) with
  | none => simp [BL.listStore, h]
  | some e =>
    simp only [BL.listStore, h]
    by_cases hc : now - e.Timestamp > e.Duration ∧ e.Duration ≠ 0
    · rw [if_pos hc, if_pos (by tauto)]
    · rw [if_neg hc, if_neg (by tauto)]

/-! ### Claim C8 -/

theorem isPrefixOf_append (p s : List Char) : p.isPrefixOf (p ++ s) = true := by
  induction p with
  | nil => simp [List.isPrefixOf]
  | cons c p ih => simp [List.isPrefixOf, ih]

theorem append_of_isPrefixOf {p k : List Char} (h : p.isPrefixOf k = true) :
    k = p ++ k.drop p.length := by
  induction p generalizing k with
  | nil => simp
  | cons c p ih =>
    cases k with
    | nil => simp [List.isPrefixOf] at h
    | cons d k =>
      rw [List.isPrefixOf, Bool.and_eq_true, beq_iff_eq] at h
      obtain ⟨rfl, hk⟩ := h
      simpa using congrArg (List.cons c) (ih hk)

/-- A store key with the blocklist prefix is exactly the generated key of the
address it unmarshals to. -/
theorem generateKey_unmarshal {k : List Char} (h : BL.keyPref.isPrefixOf k = true) :
    BL.generateKey (BL.unmarshalKey k) = k := by
  unfold BL.generateKey BL.unmarshalKey
  rw [if_pos h]
  exact (append_of_isPrefixOf h).symm

/-- With no duplicate keys, the store lookup finds exactly the stored
entry. -/
theorem lookupE_of_mem {st : BL.ListStore} {k : List Char} {e : BL.entry}
    (hnd : (st.map Prod.fst).Nodup) (hmem : (k, e) ∈ st) :
    BL.lookupE st k = some e := by
  induction st with
  | nil => cases hmem
  | cons p st ih =>
    simp only [List.map_cons, List.nodup_cons] at hnd
    rcases List.mem_cons.mp hmem with heq | hmem'
    · subst heq
      unfold BL.lookupE
      rw [List.find?_cons_of_pos _ (by simp)]
      rfl
    · have hk : k ∈ st.map Prod.fst := List.mem_map_of_mem Prod.fst hmem'
      have hne : ¬ ((p.1 == k) = true) := by
        intro hbeq
        rw [beq_iff_eq] at hbeq
        exact hnd.1 (hbeq ▸ hk)
      unfold BL.lookupE
      rw [List.find?_cons_of_neg (p := fun q => q.1 == k) st hne]
      exact ih hnd.2 hmem'

/-- The function `Peers` never mutates the store: the visitor only reads. -/
theorem peersGo_state (st : BL.ListStore) (now : Int) :
    ∀ ks acc, (BL.peersGo BL.listStore now ks st acc).1 = st := by
  intro ks
  induction ks with
  | nil => intro acc; rfl
  | cons k ks ih =>
    intro acc
    unfold BL.peersGo BL.get
    by_cases hpre : BL.keyPref.isPrefixOf k = true
    · rw [if_pos hpre]
      cases h : BL.lookupE st k with
      | none => simp [BL.listStore, h]
      | some en =>
        simp only [BL.listStore, h]
        by_cases hex : now - en.Timestamp > en.Duration ∧ en.Duration ≠ 0
        · rw [if_pos hex]; exact ih acc
        · rw [if_neg hex]; exact ih _
    · rw [if_neg hpre]

/-- An address whose stored entry is expired is never appended by the
`Peers` visitor loop. -/
theorem peersGo_not_mem {st : BL.ListStore} {a : List Char} {e : BL.entry} {now : Int}
    (hnd : (st.map Prod.fst).Nodup) (hmem : (BL.generateKey a, e) ∈ st)
    (hd : e.Duration ≠ 0) (hexp : now - e.Timestamp > e.Duration) :
    ∀ ks acc, a ∉ acc →
      ∀ ps, (BL.peersGo BL.listStore now ks st acc).2 = Except.ok ps → a ∉ ps := by
  intro ks
  induction ks with
  | nil =>
    intro acc ha ps hps
    unfold BL.peersGo at hps
    obtain rfl : acc = ps := by simpa using hps
    exact ha
  | cons k ks ih =>
    intro acc ha ps hps
    unfold BL.peersGo BL.get at hps
    by_cases hpre : BL.keyPref.isPrefixOf k = true
    · rw [if_pos hpre] at hps
      cases h : BL.lookupE st k with
      | none => simp [BL.listStore, h] at hps
      | some en =>
        simp only [BL.listStore, h] at hps
        by_cases hex : now - en.Timestamp > en.Duration ∧ en.Duration ≠ 0
        · rw [if_pos hex] at hps
          exact ih acc ha ps hps
        · rw [if_neg hex] at hps
          refine ih (acc ++ [BL.unmarshalKey k]) ?_ ps hps
          intro hmem2
          rcases List.mem_append.mp hmem2 with h1 | h2
          · exact ha h1
          · have hua : BL.unmarshalKey k = a := (List.mem_singleton.mp h2).symm
            have hk : k = BL.generateKey a := by
              rw [← hua]
              exact (generateKey_unmarshal hpre).symm
            have hle := lookupE_of_mem hnd hmem
            rw [hk, hle] at h
            have hee : en = e := (Option.some.inj h).symm
            exact hex (by rw [hee]; exact ⟨hexp, hd⟩)
    · rw [if_neg hpre] at hps
      obtain rfl : acc = ps := by simpa using hps
      exact ha

/-- Claim C8: for a store without duplicate keys, `Peers` leaves the stored
state completely unchanged (it never deletes, unlike `Exists`), and an
address whose entry's nonzero duration has elapsed (the same expiry rule as
`Exists`) is excluded from the returned peer list. -/
theorem peers_excludes_expired (st : BL.ListStore) (a : List Char) (e : BL.entry) (now : Int)
    (hnd : (st.map Prod.fst).Nodup) (hmem : (BL.generateKey a, e) ∈ st)
    (hd : e.Duration ≠ 0) (hexp : now - e.Timestamp > e.Duration) :
    (BL.Peers BL.listStore st now).1 = st ∧
    ∀ ps, (BL.Peers BL.listStore st now).2 = Except.ok ps → a ∉ ps := by
  refine ⟨peersGo_state st now _ [], fun ps hps => ?_⟩
  exact peersGo_not_mem hnd hmem hd hexp _ [] (by simp) ps hps

/-- Claim C8 theorem, witnessed on a one-entry store whose entry is expired
(duration 5, age 10): the state is untouched and the peer list is empty. -/
theorem peers_excludes_expired_witness :
    (BL.Peers BL.listStore [(BL.generateKey ['a'], ⟨0, 5⟩)] 10).1 =
      [(BL.generateKey ['a'], ⟨0, 5⟩)] ∧
    ['a'] ∉ ([] : List (List Char)) :=
  ⟨(peers_excludes_expired [(BL.generateKey ['a'], ⟨0, 5⟩)] ['a'] ⟨0, 5⟩ 10
      (by decide) (by decide) (by decide) (by decide)).1,
   (peers_excludes_expired [(BL.generateKey ['a'], ⟨0, 5⟩)] ['a'] ⟨0, 5⟩ 10
      (by decide) (by decide) (by decide) (by decide)).2 [] rfl⟩

/-! ### Claim C9 -/

/-- A store whose `Delete` fails, holding one expired entry: exercises the
discarded `Delete` error in `Exists`. -/
def badDeleteStore : BL.StateStorer Unit :=
  { Get := fun _ _ => ((), .ok ⟨0, 5⟩)
    Put := fun _ _ _ => ((), none)
    Delete := fun _ _ => ((), some (.fail 7))
    IterKeys := fun _ _ => [] }

/-- A store whose `Get` fails with a non-not-found persistence error. -/
def badGetStore : BL.StateStorer Unit :=
  { Get := fun _ _ => ((), .error (.fail 3))
    Put := fun _ _ _ => ((), none)
    Delete := fun _ _ => ((), none)
    IterKeys := fun _ _ => [] }

/-- Claim C9 (counterexample): not every store error is propagated — on the
expiry path of `Exists` the `Delete` error is deliberately discarded
(`_ = b.store.Delete(key)` in the source): against a store whose `Delete`
fails, `Exists` still reports "not blocked" with no error, although the
`Delete` it performed failed. -/
theorem exists_discards_delete_error_cex :
    BL.Exists badDeleteStore () ['a'] 100 = ((), false, none) ∧
    (badDeleteStore.Delete () (BL.generateKey ['a'])).2 = some (BL.StoreErr.fail 7) := by
  constructor <;> rfl

/-- Claim C9 (amended): every store error other than not-found that `Get`
returns to `Exists`, `Add` or the `Peers` visitor loop is propagated
unchanged to the caller, and `Add` returns the `Put` result (hence any `Put`
error) unchanged; the one exception is the `Delete` call on the expiry path
of `Exists`, whose error is deliberately discarded. -/
theorem store_error_propagation {σ : Type} (S : BL.StateStorer σ) :
    (∀ (st st' : σ) (a : List Char) (now : Int) (e : BL.StoreErr),
      e ≠ BL.StoreErr.notFound →
      S.Get st (BL.generateKey a) = (st', Except.error e) →
      BL.Exists S st a now = (st', false, some e)) ∧
    (∀ (st st' : σ) (a : List Char) (req now : Int) (e : BL.StoreErr),
      e ≠ BL.StoreErr.notFound →
      S.Get st (BL.generateKey a) = (st', Except.error e) →
      BL.Add S st a req now = (st', some e)) ∧
    (∀ (st st' : σ) (a : List Char) (req now : Int) (en : BL.entry),
      S.Get st (BL.generateKey a) = (st', Except.ok en) →
      ∃ en2, BL.Add S st a req now = S.Put st' (BL.generateKey a) en2) ∧
    (∀ (st st' : σ) (a : List Char) (req now : Int),
      S.Get st (BL.generateKey a) = (st', Except.error BL.StoreErr.notFound) →
      ∃ en2, BL.Add S st a req now = S.Put st' (BL.generateKey a) en2) ∧
    (∀ (st st' : σ) (now : Int) (k : List Char) (ks acc : List (List Char))
        (e : BL.StoreErr),
      BL.keyPref.isPrefixOf k = true →
      S.Get st k = (st', Except.error e) →
      BL.peersGo S now (k :: ks) st acc = (st', Except.error e)) := by
  refine ⟨?_, ?_, ?_, ?_, ?_⟩
  · intro st st' a now e hne hget
    unfold BL.Exists BL.get
    dsimp only
    rw [hget]
    simp [hne]
  · intro st st' a req now e hne hget
    unfold BL.Add BL.get
    dsimp only
    rw [hget]
    simp [hne]
  · intro st st' a req now en hget
    unfold BL.Add BL.get
    dsimp only
    rw [hget]
    exact ⟨_, rfl⟩
  · intro st st' a req now hget
    unfold BL.Add BL.get
    dsimp only
    rw [hget]
    simp
  · intro st st' now k ks acc e hpre hget
    unfold BL.peersGo BL.get
    rw [if_pos hpre, hget]

/-- Claim C9 amended theorem, witnessed against the failing-`Get` store:
`Exists` surfaces the `Get` failure unchanged. -/
theorem store_error_propagation_witness :
    BL.Exists badGetStore () ['a'] 0 = ((), false, some (BL.StoreErr.fail 3)) :=
  (store_error_propagation badGetStore).1 () () ['a'] 0 (BL.StoreErr.fail 3)
    (by decide) rfl
